import Mathlib

/-!
Verification development for `galore_torch/adamw_inrank.py`
(`GaLoreAdamWInRank`), an AdamW variant that adaptively grows a low-rank
projection rank per parameter.

Shallow embedding conventions:
* Dense 2-D tensors are lists of rows of rationals (`Mat`); float arithmetic
  is idealised as exact rational arithmetic.
* `math.sqrt` / elementwise `tensor.sqrt()` are abstracted as a function
  parameter `sq : ℚ → ℚ`, `torch.linalg.svdvals` as `svd : Mat → List ℚ`,
  and the opaque `GaLoreProjector` (a black-box external collaborator whose
  code is not part of the optimizer) as function parameters
  `project : ℕ → ℕ → Mat → Mat` (rank, step counter, gradient) and
  `projectBack : ℕ → Mat → Mat`.
* `torch.var` with its default unbiased correction yields NaN on tensors
  with at most one element, and the quotient `var(s - s_current)/var(s)`
  yields NaN or -inf when `var(s) = 0`; the value of
  `compute_explained_ratio` is therefore modelled by `EV`
  (NaN / -inf / an exact rational), with NaN incomparable
  (`NaN < t` is false) exactly as in IEEE semantics.
* The unguarded `while` loop of `step` (lines 123-124) is embedded as the
  fuelled function `growRankF`; `growRank` runs it with fuel
  `s.length + 1`, which is proved sufficient below.
-/

namespace GaLoreInRank

/-- A dense 2-D tensor: a list of rows of rationals. -/
abbrev Mat := List (List ℚ)

/-- Tensor size along dimension 0 (number of rows). -/
def nRows (m : Mat) : ℕ := m.length

/-- Tensor size along dimension 1, read off the first row. -/
def nCols (m : Mat) : ℕ := (m.headD []).length

/-- Elementwise unary tensor operation. -/
def matMap (f : ℚ → ℚ) (m : Mat) : Mat := m.map (fun row => row.map f)

/-- Elementwise binary tensor operation (in torch the shapes coincide). -/
def matZip (f : ℚ → ℚ → ℚ) (a b : Mat) : Mat :=
  List.zipWith (fun ra rb => List.zipWith f ra rb) a b

/-- torch.zeros_like. -/
def zerosLike (m : Mat) : Mat := matMap (fun _ => 0) m

/-- Size of the smaller of the two axes of a 2-D tensor. -/
def minAxis (m : Mat) : ℕ := min (nRows m) (nCols m)

/-- tensor.size(dim = d) for d in 0, 1. -/
def sizeDim (d : ℕ) (m : Mat) : ℕ := if d = 0 then nRows m else nCols m

/-- Entry of the tensor at row i, column j, when present. -/
def entry (m : Mat) (i j : ℕ) : Option ℚ :=
  match m[i]? with
  | some row => row[j]?
  | none => none

/-- Line 77: `self.rank_buffer = 100`. -/
def rank_buffer : ℕ := 100

/-- Line 78: `self.explained_ratio_threshold = 0.9`. -/
def explained_ratio_threshold : ℚ := 9 / 10

/-- Line 75: `self.param_ranks = [2 for p in self.galore_group["params"]]`. -/
def init_param_ranks {α : Type} (params : List α) : List ℕ :=
  params.map (fun _ => 2)

/-- Mean of a list of rationals (division by zero yields 0, guarded by
`varTorch` below). -/
def listMean (s : List ℚ) : ℚ := s.sum / (s.length : ℚ)

/-- torch.var with the default unbiased (correction = 1) denominator
`n - 1`; NaN (here: `none`) whenever the list has at most one element. -/
def varTorch (s : List ℚ) : Option ℚ :=
  if s.length ≤ 1 then none
  else some ((s.map (fun x => (x - listMean s) ^ 2)).sum / ((s.length : ℚ) - 1))

/-- Line 190: `s_current = s.clone(); s_current[s_max:] = 0`. -/
def zeroFrom (k : ℕ) (s : List ℚ) : List ℚ :=
  s.take k ++ List.replicate (s.length - k) 0

/-- The tensor `s - s_current` of line 191. -/
def diffFrom (k : ℕ) (s : List ℚ) : List ℚ :=
  List.zipWith (fun a b => a - b) s (zeroFrom k s)

/-- Extended value of a float expression: NaN, -inf, or an exact rational. -/
inductive EV where
  | nan : EV
  | neginf : EV
  | val : ℚ → EV
deriving DecidableEq

/-- Lines 188-191: `compute_explained_ratio(s_max, s) =
1 - torch.var(s - s_current) / torch.var(s)`, with IEEE special values:
both variances NaN when the spectrum has at most one value; when
`var(s) = 0` the quotient is NaN (0/0) or +inf (pos/0), so the ratio is
NaN or -inf. -/
def explainedRatioAt (s_max : ℕ) (s : List ℚ) : EV :=
  match varTorch (diffFrom s_max s), varTorch s with
  | some vd, some vs =>
    if vs = 0 then (if vd = 0 then EV.nan else EV.neginf)
    else EV.val (1 - vd / vs)
  | _, _ => EV.nan

/-- The loop guard of line 123:
`compute_explained_ratio(curr_rank, s) < self.explained_ratio_threshold`.
A NaN comparison is false, -inf is below every threshold. -/
def ratioBelow (k : ℕ) (s : List ℚ) : Bool :=
  match explainedRatioAt k s with
  | EV.nan => false
  | EV.neginf => true
  | EV.val q => decide (q < explained_ratio_threshold)

/-- The unguarded while loop of lines 123-124, embedded with explicit fuel:
`while ratio < threshold: curr_rank += 1`; `none` means the fuel ran out. -/
def growRankF (fuel k : ℕ) (s : List ℚ) : Option ℕ :=
  if ratioBelow k s then
    match fuel with
    | 0 => none
    | f + 1 => growRankF f (k + 1) s
  else some k

/-- The rank produced by the while loop; fuel `s.length + 1` is proved
sufficient (`growRankF` never returns `none` with it). -/
def growRank (k : ℕ) (s : List ℚ) : ℕ :=
  (growRankF (s.length + 1) k s).getD k

/-- Lines 116-126: slice the leading `curr_rank + rank_buffer` rows, take
singular values, grow the rank until the guard fails, and report the rank
together with the explained ratio recomputed at it (line 125). -/
def estimateRank (svd : Mat → List ℚ) (curr_rank : ℕ) (gmat : Mat) : ℕ × EV :=
  let matrix := gmat.take (curr_rank + rank_buffer)
  let s := svd matrix
  let newRank := growRank curr_rank s
  (newRank, explainedRatioAt newRank s)

/-- Line 141: `rank_dim = 0 if grad.size(dim=0) < grad.size(dim=1) else 1`. -/
def rankDim (grad : Mat) : ℕ := if nRows grad < nCols grad then 0 else 1

/-- Lines 144-146: `F.pad` with `(0, 0, 0, diff)` appends `diff` zero rows;
with `(0, diff)` it appends `diff` zeros to every row. -/
def padDim (d diff : ℕ) (m : Mat) : Mat :=
  if d = 0 then m ++ List.replicate diff (List.replicate (nCols m) 0)
  else m.map (fun row => row ++ List.replicate diff 0)

/-- Lines 140-146: if the (already updated) rank exceeds the moment
buffers' size along the rank dimension of the projected gradient, pad both
buffers with zeros along that dimension up to the rank. -/
def reconcileMoments (grad : Mat) (rank : ℕ) (mv : Mat × Mat) : Mat × Mat :=
  let rd := rankDim grad
  if sizeDim rd mv.1 < rank then
    let rank_diff := rank - sizeDim rd mv.1
    (padDim rd rank_diff mv.1, padDim rd rank_diff mv.2)
  else mv

/-- Construction-time configuration errors of `__init__` (lines 56-63). -/
inductive ConfigError where
  | invalidLr : ConfigError
  | invalidBeta1 : ConfigError
  | invalidBeta2 : ConfigError
  | invalidEps : ConfigError
deriving DecidableEq

/-- Lines 56-63 of `__init__`: hyperparameter validation. The learning rate
check is `lr < 0.0`, and `weight_decay` is accepted unchecked. -/
def validateHyper (lr beta1 beta2 eps weight_decay : ℚ) :
    Except ConfigError Unit :=
  if lr < 0 then Except.error ConfigError.invalidLr
  else if ¬(0 ≤ beta1 ∧ beta1 < 1) then Except.error ConfigError.invalidBeta1
  else if ¬(0 ≤ beta2 ∧ beta2 < 1) then Except.error ConfigError.invalidBeta2
  else if ¬(0 ≤ eps) then Except.error ConfigError.invalidEps
  else
    let _ := weight_decay
    Except.ok ()

/-- Hyperparameters of a parameter group; `isGalore` models the
`"rank" in group` membership check. -/
structure GroupCfg where
  lr : ℚ
  beta1 : ℚ
  beta2 : ℚ
  eps : ℚ
  weight_decay : ℚ
  correct_bias : Bool
  isGalore : Bool
deriving DecidableEq

/-- A gradient tensor together with its sparsity flag. -/
structure Grad where
  isSparse : Bool
  mat : Mat
deriving DecidableEq

/-- Per-parameter optimizer state (`self.state[p]`): the optional `"step"`
counter, the optional pair of moment buffers (`"exp_avg"`,
`"exp_avg_sq"`, always created together), and the optional projector,
observable through its bound rank. -/
structure PState where
  stepc : Option ℕ
  moments : Option (Mat × Mat)
  projRank : Option ℕ
deriving DecidableEq

/-- The only error `step` can raise per parameter (line 104). -/
inductive StepError where
  | sparseGrad : StepError
deriving DecidableEq

/-- One slot of the optimization loop: the parameter tensor, its gradient
(`none` models `p.grad is None`), its state, and its entries of the rank
table and the explained-value table. -/
structure PEntry where
  p : Mat
  grad : Option Grad
  st : PState
  rank : ℕ
  ratioVal : EV
deriving DecidableEq

/-- Lines 159-163: `step_size = lr`, rescaled by
`sqrt(1 - beta2^t) / (1 - beta1^t)` when bias correction is on, where `t`
is the step counter after the increment of line 151. -/
def stepSizeCalc (g : GroupCfg) (sq : ℚ → ℚ) (t : ℕ) : ℚ :=
  if g.correct_bias then g.lr * sq (1 - g.beta2 ^ t) / (1 - g.beta1 ^ t)
  else g.lr

/-- Lines 102-183: the per-parameter body of `step`, for a parameter whose
gradient is present. Returns the updated parameter, state, rank-table entry
and ratio-table entry, or the raised error. The sparse check (lines
103-104) comes before every mutation. -/
def paramStep (g : GroupCfg) (sq : ℚ → ℚ) (svd : Mat → List ℚ)
    (project : ℕ → ℕ → Mat → Mat) (projectBack : ℕ → Mat → Mat)
    (rank0 : ℕ) (ratio0 : EV) (p : Mat) (gr : Grad) (st : PState) :
    Except StepError (Mat × PState × ℕ × EV) :=
  if gr.isSparse then Except.error StepError.sparseGrad
  else
    let step0 := st.stepc.getD 0
    let est := estimateRank svd rank0 gr.mat
    let rank1 := if g.isGalore then est.1 else rank0
    let ratio1 := if g.isGalore then est.2 else ratio0
    let projRank1 :=
      if g.isGalore then
        match st.projRank with
        | none => some rank1
        | some pr => if rank1 ≠ pr then some rank1 else some pr
      else st.projRank
    let grad1 := if g.isGalore then project rank1 step0 gr.mat else gr.mat
    let mv :=
      match st.moments with
      | none => (zerosLike grad1, zerosLike grad1)
      | some mv0 => if g.isGalore then reconcileMoments grad1 rank1 mv0 else mv0
    let t := step0 + 1
    let m1 := matZip (fun a b => g.beta1 * a + (1 - g.beta1) * b) mv.1 grad1
    let v1 := matZip (fun a b => g.beta2 * a + (1 - g.beta2) * b * b) mv.2 grad1
    let denom := matMap (fun x => sq x + g.eps) v1
    let step_size := stepSizeCalc g sq t
    let norm0 := matZip (fun a b => a / b) m1 denom
    let norm_grad := if g.isGalore then projectBack rank1 norm0 else norm0
    let p1 := matZip (fun a b => a + (-step_size) * b) p norm_grad
    let p2 :=
      if g.weight_decay > 0 then
        matMap (fun a => a + (-(g.lr * g.weight_decay)) * a) p1
      else p1
    Except.ok (p2, ⟨some t, some (m1, v1), projRank1⟩, rank1, ratio1)

/-- Lines 98-185: the optimization loop over the parameters of a group.
A parameter whose gradient is `None` is skipped (lines 100-101); a raised
error aborts the loop, leaving the failing parameter and every later one
untouched. -/
def stepLoop (g : GroupCfg) (sq : ℚ → ℚ) (svd : Mat → List ℚ)
    (project : ℕ → ℕ → Mat → Mat) (projectBack : ℕ → Mat → Mat) :
    List PEntry → List PEntry × Option StepError
  | [] => ([], none)
  | e :: rest =>
    match e.grad with
    | none =>
      let r := stepLoop g sq svd project projectBack rest
      (e :: r.1, r.2)
    | some gr =>
      match paramStep g sq svd project projectBack e.rank e.ratioVal e.p gr e.st with
      | Except.error err => (e :: rest, some err)
      | Except.ok (p', st', rk', ra') =>
        let r := stepLoop g sq svd project projectBack rest
        (⟨p', e.grad, st', rk', ra'⟩ :: r.1, r.2)

/-! Helper lemmas about the explained ratio and the rank-growth loop. -/

theorem zeroFrom_of_le {k : ℕ} {s : List ℚ} (h : s.length ≤ k) :
    zeroFrom k s = s := by
  unfold zeroFrom
  rw [List.take_of_length_le h, Nat.sub_eq_zero_of_le h]
  simp

theorem zipWith_sub_self (s : List ℚ) :
    List.zipWith (fun a b => a - b) s s = List.replicate s.length 0 := by
  induction s with
  | nil => rfl
  | cons a t ih => simp [List.replicate_succ, ih]

theorem diffFrom_of_le {k : ℕ} {s : List ℚ} (h : s.length ≤ k) :
    diffFrom k s = List.replicate s.length 0 := by
  unfold diffFrom
  rw [zeroFrom_of_le h, zipWith_sub_self]

theorem varTorch_replicate_zero {n : ℕ} (h : 2 ≤ n) :
    varTorch (List.replicate n (0 : ℚ)) = some 0 := by
  unfold varTorch listMean
  rw [if_neg (by simp; omega)]
  simp

theorem length_diffFrom (k : ℕ) (s : List ℚ) :
    (diffFrom k s).length = s.length := by
  unfold diffFrom zeroFrom
  simp [List.length_zipWith]
  omega

/-- Once the truncation index reaches the number of available singular
values, the loop guard is false: the explained ratio is NaN when the
spectrum variance is NaN or zero, and exactly 1 otherwise. -/
theorem ratioBelow_of_le {k : ℕ} {s : List ℚ} (h : s.length ≤ k) :
    ratioBelow k s = false := by
  unfold ratioBelow explainedRatioAt
  rw [diffFrom_of_le h]
  by_cases h2 : s.length ≤ 1
  · have hs : varTorch s = none := by unfold varTorch; rw [if_pos h2]
    have hd : varTorch (List.replicate s.length (0 : ℚ)) = none := by
      unfold varTorch; rw [if_pos (by simpa using h2)]
    rw [hs, hd]
  · have hd : varTorch (List.replicate s.length (0 : ℚ)) = some 0 :=
      varTorch_replicate_zero (by omega)
    have hs : ∃ vs, varTorch s = some vs := by
      unfold varTorch; rw [if_neg h2]; exact ⟨_, rfl⟩
    obtain ⟨vs, hvs⟩ := hs
    rw [hd, hvs]
    by_cases hz : vs = 0
    · simp [hz]
    · norm_num [hz, explained_ratio_threshold]

/-- Fuel sufficiency for the while loop of lines 123-124: starting at `k`
with fuel covering the remaining spectrum, the loop halts at a rank between
`k` and `max k s.length`, with the loop guard false at exit. -/
theorem growRankF_some (fuel : ℕ) :
    ∀ (k : ℕ) (s : List ℚ), s.length ≤ k + fuel →
      ∃ r, growRankF fuel k s = some r ∧ k ≤ r ∧ r ≤ max k s.length ∧
        ratioBelow r s = false := by
  induction fuel with
  | zero =>
    intro k s h
    have hb : ratioBelow k s = false := ratioBelow_of_le (by omega)
    exact ⟨k, by unfold growRankF; rw [hb]; simp, le_refl k, le_max_left _ _, hb⟩
  | succ f ih =>
    intro k s h
    by_cases hb : ratioBelow k s
    · have hk : k < s.length := by
        by_contra hk
        rw [ratioBelow_of_le (by omega)] at hb
        exact Bool.false_ne_true hb
      obtain ⟨r, hr, hkr, hrmax, hexit⟩ := ih (k + 1) s (by omega)
      refine ⟨r, ?_, by omega, ?_, hexit⟩
      · unfold growRankF; rw [hb]; simpa using hr
      · have : max (k + 1) s.length = s.length := by omega
        rw [this] at hrmax
        omega
    · rw [Bool.not_eq_true] at hb
      exact ⟨k, by unfold growRankF; rw [hb]; simp, le_refl k, le_max_left _ _, hb⟩

/-- The rank produced by the loop: monotone in the start rank, bounded by
`max k s.length`, and the guard is false at it. -/
theorem growRank_bounds (k : ℕ) (s : List ℚ) :
    growRankF (s.length + 1) k s = some (growRank k s) ∧
      k ≤ growRank k s ∧ growRank k s ≤ max k s.length ∧
      ratioBelow (growRank k s) s = false := by
  obtain ⟨r, hr, hkr, hrmax, hexit⟩ := growRankF_some (s.length + 1) k s (by omega)
  have hg : growRank k s = r := by unfold growRank; rw [hr]; rfl
  rw [hg]
  exact ⟨hr, hkr, hrmax, hexit⟩

/-! Helper lemmas about tensor shapes. -/

theorem nRows_matZip (f : ℚ → ℚ → ℚ) (a b : Mat) :
    nRows (matZip f a b) = min (nRows a) (nRows b) := by
  simp [matZip, nRows, List.length_zipWith]

theorem nCols_matZip (f : ℚ → ℚ → ℚ) (a b : Mat) :
    nCols (matZip f a b) = min (nCols a) (nCols b) := by
  cases a with
  | nil => simp [matZip, nCols]
  | cons ra ta =>
    cases b with
    | nil => simp [matZip, nCols]
    | cons rb tb => simp [matZip, nCols, List.length_zipWith]

theorem nRows_zerosLike (m : Mat) : nRows (zerosLike m) = nRows m := by
  simp [zerosLike, matMap, nRows]

theorem nCols_zerosLike (m : Mat) : nCols (zerosLike m) = nCols m := by
  cases m <;> simp [zerosLike, matMap, nCols]

theorem minAxis_zerosLike (m : Mat) : minAxis (zerosLike m) = minAxis m := by
  simp [minAxis, nRows_zerosLike, nCols_zerosLike]

theorem nRows_padDim_zero (d : ℕ) (m : Mat) :
    nRows (padDim 0 d m) = nRows m + d := by
  simp [padDim, nRows]

theorem nCols_padDim_zero (d : ℕ) (m : Mat) (h : m ≠ []) :
    nCols (padDim 0 d m) = nCols m := by
  cases m with
  | nil => exact absurd rfl h
  | cons r t => simp [padDim, nCols]

theorem nRows_padDim_one (d : ℕ) (m : Mat) :
    nRows (padDim 1 d m) = nRows m := by
  simp [padDim, nRows]

theorem nCols_padDim_one (d : ℕ) (m : Mat) (h : m ≠ []) :
    nCols (padDim 1 d m) = nCols m + d := by
  cases m with
  | nil => exact absurd rfl h
  | cons r t => simp [padDim, nCols]

theorem sizeDim_zero (m : Mat) : sizeDim 0 m = nRows m := rfl

theorem sizeDim_one (m : Mat) : sizeDim 1 m = nCols m := rfl

theorem reconcileMoments_def (G : Mat) (r : ℕ) (m v : Mat) :
    reconcileMoments G r (m, v) =
      if sizeDim (rankDim G) m < r then
        (padDim (rankDim G) (r - sizeDim (rankDim G) m) m,
          padDim (rankDim G) (r - sizeDim (rankDim G) m) v)
      else (m, v) := rfl

/-! Claim C3. -/

/-- Claim C3: after reconciliation against the (projected) gradient `G`,
both moment buffers measure at least the current rank `r` along the rank
dimension — in particular along their smaller axis, given that the other
axis already measures at least `r` — and reconciliation never shrinks
either buffer along either axis; the subsequent elementwise moment update
(`matZip`) and the zero allocation (`zerosLike`) keep shapes, so the bound
still holds when the step completes. -/
theorem moment_buffers_cover_rank
    (G : Mat) (r : ℕ) (m v : Mat) (f : ℚ → ℚ → ℚ) (a b : Mat)
    (hrv : nRows v = nRows m) (hcv : nCols v = nCols m)
    (hm : 0 < nRows m) (hother : r ≤ sizeDim (1 - rankDim G) m) :
    (nRows m ≤ nRows (reconcileMoments G r (m, v)).1 ∧
     nCols m ≤ nCols (reconcileMoments G r (m, v)).1 ∧
     nRows v ≤ nRows (reconcileMoments G r (m, v)).2 ∧
     nCols v ≤ nCols (reconcileMoments G r (m, v)).2) ∧
    (r ≤ sizeDim (rankDim G) (reconcileMoments G r (m, v)).1 ∧
     r ≤ sizeDim (rankDim G) (reconcileMoments G r (m, v)).2 ∧
     r ≤ minAxis (reconcileMoments G r (m, v)).1 ∧
     r ≤ minAxis (reconcileMoments G r (m, v)).2) ∧
    (nRows (matZip f a b) = min (nRows a) (nRows b) ∧
     nCols (matZip f a b) = min (nCols a) (nCols b) ∧
     minAxis (zerosLike a) = minAxis a) := by
  have hmne : m ≠ [] := by
    cases m with
    | nil => exact absurd hm (by simp [nRows])
    | cons x t => simp
  have hvne : v ≠ [] := by
    cases v with
    | nil => exact absurd (hrv.symm.trans_lt hm).ne' (by simp [nRows])
    | cons x t => simp
  refine ⟨?_, ?_, nRows_matZip f a b, nCols_matZip f a b, minAxis_zerosLike a⟩ <;>
  · by_cases hG : nRows G < nCols G
    · have hrd : rankDim G = 0 := if_pos hG
      have hother' : r ≤ nCols m := by
        have h1 : (1 : ℕ) - rankDim G = 1 := by rw [hrd]
        rw [h1, sizeDim_one] at hother
        exact hother
      have hrec : reconcileMoments G r (m, v) =
          if nRows m < r then
            (padDim 0 (r - nRows m) m, padDim 0 (r - nRows m) v)
          else (m, v) := by
        rw [reconcileMoments_def, hrd, sizeDim_zero]
      by_cases hgrow : nRows m < r
      · rw [hrec, if_pos hgrow]
        simp only [minAxis, le_min_iff, hrd, sizeDim_zero, nRows_padDim_zero,
          nCols_padDim_zero _ _ hmne, nCols_padDim_zero _ _ hvne]
        omega
      · rw [hrec, if_neg hgrow]
        simp only [minAxis, le_min_iff, hrd, sizeDim_zero]
        omega
    · have hrd : rankDim G = 1 := if_neg hG
      have hother' : r ≤ nRows m := by
        have h1 : (1 : ℕ) - rankDim G = 0 := by rw [hrd]
        rw [h1, sizeDim_zero] at hother
        exact hother
      have hrec : reconcileMoments G r (m, v) =
          if nCols m < r then
            (padDim 1 (r - nCols m) m, padDim 1 (r - nCols m) v)
          else (m, v) := by
        rw [reconcileMoments_def, hrd, sizeDim_one]
      by_cases hgrow : nCols m < r
      · rw [hrec, if_pos hgrow]
        simp only [minAxis, le_min_iff, hrd, sizeDim_one, nRows_padDim_one,
          nCols_padDim_one _ _ hmne, nCols_padDim_one _ _ hvne]
        omega
      · rw [hrec, if_neg hgrow]
        simp only [minAxis, le_min_iff, hrd, sizeDim_one]
        omega

/-! Entry-level lemmas about zero padding. -/

theorem entry_some_lt {m : Mat} {i j : ℕ} {q : ℚ} (h : entry m i j = some q) :
    ∃ row, m[i]? = some row ∧ row[j]? = some q := by
  unfold entry at h
  cases hm : m[i]? with
  | none => rw [hm] at h; exact absurd h (by simp)
  | some row => rw [hm] at h; exact ⟨row, rfl, h⟩

theorem entry_padDim_preserved (d diff : ℕ) (m : Mat) (i j : ℕ) (q : ℚ)
    (h : entry m i j = some q) : entry (padDim d diff m) i j = some q := by
  obtain ⟨row, hm, hrow⟩ := entry_some_lt h
  have hi : i < m.length := by
    rcases List.getElem?_eq_some_iff.mp hm with ⟨hlt, _⟩
    exact hlt
  have hj : j < row.length := by
    rcases List.getElem?_eq_some_iff.mp hrow with ⟨hlt, _⟩
    exact hlt
  unfold entry padDim
  by_cases hd : d = 0
  · rw [if_pos hd, List.getElem?_append_left hi, hm]
    exact hrow
  · rw [if_neg hd, List.getElem?_map, hm]
    simp only [Option.map_some']
    rw [List.getElem?_append_left hj]
    exact hrow

theorem entry_padDim_new_zero (d diff : ℕ) (m : Mat) (i j : ℕ) (q : ℚ)
    (hnone : entry m i j = none) (hsome : entry (padDim d diff m) i j = some q) :
    q = 0 := by
  obtain ⟨prow, hpm, hprow⟩ := entry_some_lt hsome
  unfold entry at hnone
  unfold padDim at hpm
  by_cases hd : d = 0
  · rw [if_pos hd] at hpm
    cases hm : m[i]? with
    | some row =>
      have hi : i < m.length := by
        rcases List.getElem?_eq_some_iff.mp hm with ⟨hlt, _⟩
        exact hlt
      rw [hm] at hnone
      have hnone' : row[j]? = none := hnone
      rw [List.getElem?_append_left hi, hm] at hpm
      rw [(Option.some_inj.mp hpm).symm, hnone'] at hprow
      exact absurd hprow (by simp)
    | none =>
      have hi : m.length ≤ i := by
        rw [← List.getElem?_eq_none_iff]
        exact hm
      rw [List.getElem?_append_right hi, List.getElem?_replicate] at hpm
      by_cases hlt : i - m.length < diff
      · rw [if_pos hlt] at hpm
        rw [← Option.some_inj.mp hpm, List.getElem?_replicate] at hprow
        by_cases hj : j < nCols m
        · rw [if_pos hj] at hprow
          exact (Option.some_inj.mp hprow).symm
        · rw [if_neg hj] at hprow
          exact absurd hprow (by simp)
      · rw [if_neg hlt] at hpm
        exact absurd hpm (by simp)
  · rw [if_neg hd, List.getElem?_map] at hpm
    cases hm : m[i]? with
    | none =>
      rw [hm] at hpm
      exact absurd hpm (by simp)
    | some row =>
      rw [hm] at hnone hpm
      simp only [Option.map_some'] at hpm
      have hj : row.length ≤ j := by
        rw [← List.getElem?_eq_none_iff]
        exact hnone
      rw [← Option.some_inj.mp hpm, List.getElem?_append_right hj,
        List.getElem?_replicate] at hprow
      by_cases hlt : j - row.length < diff
      · rw [if_pos hlt] at hprow
        exact (Option.some_inj.mp hprow).symm
      · rw [if_neg hlt] at hprow
        exact absurd hprow (by simp)

/-! Claim C4. -/

/-- Claim C4: when rank growth forces a resize (the rank exceeds the
buffers' size along the rank dimension), both moment buffers are padded
with zeros along the rank dimension only, at the end of that axis, up to
the new rank: every pre-existing entry keeps its value at its index, every
newly added entry is zero, the rank axis now measures exactly the new
rank, and the other axis is untouched. -/
theorem growth_pads_with_zeros (G : Mat) (r : ℕ) (m v : Mat)
    (hgrow : sizeDim (rankDim G) m < r)
    (hrv : nRows v = nRows m) (hcv : nCols v = nCols m) (hm : 0 < nRows m) :
    (∀ i j q, entry m i j = some q →
      entry (reconcileMoments G r (m, v)).1 i j = some q) ∧
    (∀ i j q, entry v i j = some q →
      entry (reconcileMoments G r (m, v)).2 i j = some q) ∧
    (∀ i j q, entry m i j = none →
      entry (reconcileMoments G r (m, v)).1 i j = some q → q = 0) ∧
    (∀ i j q, entry v i j = none →
      entry (reconcileMoments G r (m, v)).2 i j = some q → q = 0) ∧
    sizeDim (rankDim G) (reconcileMoments G r (m, v)).1 = r ∧
    sizeDim (rankDim G) (reconcileMoments G r (m, v)).2 = r ∧
    sizeDim (1 - rankDim G) (reconcileMoments G r (m, v)).1 =
      sizeDim (1 - rankDim G) m ∧
    sizeDim (1 - rankDim G) (reconcileMoments G r (m, v)).2 =
      sizeDim (1 - rankDim G) v := by
  have hmne : m ≠ [] := by
    cases m with
    | nil => exact absurd hm (by simp [nRows])
    | cons x t => simp
  have hvne : v ≠ [] := by
    cases v with
    | nil => exact absurd (hrv.symm.trans_lt hm).ne' (by simp [nRows])
    | cons x t => simp
  have hrec : reconcileMoments G r (m, v) =
      (padDim (rankDim G) (r - sizeDim (rankDim G) m) m,
        padDim (rankDim G) (r - sizeDim (rankDim G) m) v) := by
    rw [reconcileMoments_def, if_pos hgrow]
  rw [hrec]
  refine ⟨fun i j q h => entry_padDim_preserved _ _ _ _ _ _ h,
    fun i j q h => entry_padDim_preserved _ _ _ _ _ _ h,
    fun i j q h1 h2 => entry_padDim_new_zero _ _ _ _ _ _ h1 h2,
    fun i j q h1 h2 => entry_padDim_new_zero _ _ _ _ _ _ h1 h2,
    ?_, ?_, ?_, ?_⟩ <;>
  · by_cases hG : nRows G < nCols G
    · have hrd : rankDim G = 0 := if_pos hG
      rw [hrd] at hgrow ⊢
      rw [sizeDim_zero] at hgrow
      simp only [Nat.sub_zero, sizeDim_zero, sizeDim_one, nRows_padDim_zero,
        nCols_padDim_zero _ _ hmne, nCols_padDim_zero _ _ hvne]
      try omega
    · have hrd : rankDim G = 1 := if_neg hG
      rw [hrd] at hgrow ⊢
      rw [sizeDim_one] at hgrow
      simp only [Nat.sub_self, sizeDim_zero, sizeDim_one, nRows_padDim_one,
        nCols_padDim_one _ _ hmne, nCols_padDim_one _ _ hvne]
      try omega

/-! Claim C5. -/

/-- Claim C5: moment-state reconciliation is idempotent: for any buffers
and any rank not exceeding their current size along the rank dimension
(no growth), reconciling twice leaves the buffers identical to
reconciling once. -/
theorem reconcile_idempotent (G : Mat) (r : ℕ) (m v : Mat)
    (h : r ≤ sizeDim (rankDim G) m) :
    reconcileMoments G r (reconcileMoments G r (m, v)) =
      reconcileMoments G r (m, v) := by
  have h1 : reconcileMoments G r (m, v) = (m, v) := by
    rw [reconcileMoments_def, if_neg (by omega)]
  rw [h1, h1]

/-! Claim C1. -/

/-- Claim C1 (counterexample to the claim as stated): a rank-estimation
request in which the threshold can never be met — a single available
singular value `s = [1]` (its variance is NaN under the unbiased torch
correction, so every explained ratio is NaN and never reaches 0.9) with
requested rank 2 exceeding the available count 1 — returns normally with
the rank unchanged and a NaN ratio; no `RankGrowthNonConvergence` error
exists in the code, and nothing is raised. -/
theorem rank_growth_no_error_counterexample :
    estimateRank (fun _ => [1]) 2 [[1]] = (2, EV.nan) ∧
      explainedRatioAt 2 [1] = EV.nan ∧
      ([(1 : ℚ)] : List ℚ).length < 2 := by
  refine ⟨by decide, by decide, by decide⟩

/-- Claim C1 (amended): the rank-growth loop of lines 123-124 raises
nothing and is nevertheless safe: for every start rank and every singular
value list it terminates within `s.length + 1` iterations (the fuelled
loop returns `some`), the resulting rank is between the start rank and
`max start s.length`, and the loop guard is false at exit (the explained
ratio is no longer below the threshold, or has become NaN). -/
theorem rank_growth_loop_terminates (k : ℕ) (s : List ℚ) :
    growRankF (s.length + 1) k s = some (growRank k s) ∧
      k ≤ growRank k s ∧ growRank k s ≤ max k s.length ∧
      ratioBelow (growRank k s) s = false :=
  growRank_bounds k s

/-! Claim C6. -/

/-- Claim C6 (counterexample to the claim as stated): construction-time
validation accepts a zero learning rate (the code checks `lr < 0.0`, not
`lr <= 0.0`) and accepts a negative weight decay (never validated). -/
theorem validate_accepts_zero_lr_neg_wd :
    validateHyper 0 0 0 0 (-1) = Except.ok () := by
  unfold validateHyper
  norm_num

/-- Claim C6 (amended): hyperparameter validation succeeds exactly when
the learning rate is nonnegative (zero included), each beta lies in
[0, 1), and epsilon is nonnegative; the weight decay is never examined. -/
theorem validateHyper_ok_iff (lr b1 b2 eps wd : ℚ) :
    validateHyper lr b1 b2 eps wd = Except.ok () ↔
      (0 ≤ lr ∧ (0 ≤ b1 ∧ b1 < 1) ∧ (0 ≤ b2 ∧ b2 < 1) ∧ 0 ≤ eps) := by
  unfold validateHyper
  split_ifs with h1 h2 h3 h4 <;> simp_all [← not_lt]

/-! Claim C9. -/

/-- Claim C9: the applied step size (`stepSizeCalc`, invoked by
`paramStep` at the post-increment counter) equals the raw learning rate
whenever bias correction is off, regardless of the step count; with bias
correction on and counter t it equals lr * sqrt(1 - beta2^t) / (1 -
beta1^t), which at t = 1 is lr * sqrt(1 - beta2) / (1 - beta1). -/
theorem step_size_formula (g : GroupCfg) (sq : ℚ → ℚ) (t : ℕ) :
    (g.correct_bias = false → stepSizeCalc g sq t = g.lr) ∧
    (g.correct_bias = true →
      stepSizeCalc g sq t = g.lr * sq (1 - g.beta2 ^ t) / (1 - g.beta1 ^ t)) ∧
    (g.correct_bias = true →
      stepSizeCalc g sq 1 = g.lr * sq (1 - g.beta2) / (1 - g.beta1)) := by
  refine ⟨fun h => ?_, fun h => ?_, fun h => ?_⟩ <;>
    simp [stepSizeCalc, h, pow_one]

/-! Lemmas about `paramStep` and the optimization loop. -/

theorem paramStep_sparse (g : GroupCfg) (sq : ℚ → ℚ) (svd : Mat → List ℚ)
    (project : ℕ → ℕ → Mat → Mat) (projectBack : ℕ → Mat → Mat)
    (rank0 : ℕ) (ratio0 : EV) (p : Mat) (gr : Grad) (st : PState)
    (hs : gr.isSparse = true) :
    paramStep g sq svd project projectBack rank0 ratio0 p gr st =
      Except.error StepError.sparseGrad := by
  unfold paramStep
  rw [if_pos hs]

theorem paramStep_rank_ge (g : GroupCfg) (sq : ℚ → ℚ) (svd : Mat → List ℚ)
    (project : ℕ → ℕ → Mat → Mat) (projectBack : ℕ → Mat → Mat)
    (rank0 : ℕ) (ratio0 : EV) (p : Mat) (gr : Grad) (st : PState)
    (p' : Mat) (st' : PState) (rk' : ℕ) (ra' : EV)
    (h : paramStep g sq svd project projectBack rank0 ratio0 p gr st =
      Except.ok (p', st', rk', ra')) :
    rank0 ≤ rk' := by
  unfold paramStep at h
  by_cases hs : gr.isSparse = true
  · rw [if_pos hs] at h
    exact absurd h (by simp)
  · rw [if_neg hs] at h
    simp only [Except.ok.injEq, Prod.mk.injEq] at h
    obtain ⟨-, -, h3, -⟩ := h
    rw [← h3]
    by_cases hgal : g.isGalore
    · simp only [if_pos hgal, estimateRank]
      exact (growRank_bounds rank0 _).2.1
    · simp only [if_neg hgal]
      exact le_refl rank0

/-! Claim C10. -/

/-- Claim C10: a parameter whose gradient is absent is skipped whole: its
tensor value, its per-parameter state, and its rank-table and
ratio-table entries are all unchanged by the step. -/
theorem none_grad_skips_param (g : GroupCfg) (sq : ℚ → ℚ) (svd : Mat → List ℚ)
    (project : ℕ → ℕ → Mat → Mat) (projectBack : ℕ → Mat → Mat)
    (entries : List PEntry) (i : ℕ) (e : PEntry)
    (he : entries[i]? = some e) (hg : e.grad = none) :
    (stepLoop g sq svd project projectBack entries).1[i]? = some e := by
  induction entries generalizing i with
  | nil => simp at he
  | cons a rest ih =>
    cases i with
    | zero =>
      have ha : a = e := Option.some_inj.mp (by simpa using he)
      subst ha
      simp only [stepLoop, hg]
      simp
    | succ j =>
      simp only [List.getElem?_cons_succ] at he
      simp only [stepLoop]
      cases hga : a.grad with
      | none =>
        simp only [hga]
        simpa using ih j he
      | some gra =>
        cases hps : paramStep g sq svd project projectBack a.rank a.ratioVal a.p gra a.st with
        | error err =>
          simp only [hga, hps]
          simpa using he
        | ok out =>
          obtain ⟨p1, st1, rk1, ra1⟩ := out
          simp only [hga, hps]
          simpa using ih j he

/-! Claim C7. -/

/-- Claim C7: a sparse gradient on any parameter makes the step raise its
sparse-gradient error, which propagates to the caller, and that
parameter's tensor value, state, rank-table entry and ratio-table entry
are all unchanged by the failed step (the raise precedes every
mutation). -/
theorem sparse_grad_raises_and_preserves (g : GroupCfg) (sq : ℚ → ℚ)
    (svd : Mat → List ℚ) (project : ℕ → ℕ → Mat → Mat)
    (projectBack : ℕ → Mat → Mat)
    (entries : List PEntry) (i : ℕ) (e : PEntry) (gr : Grad)
    (he : entries[i]? = some e) (hg : e.grad = some gr)
    (hs : gr.isSparse = true) :
    (stepLoop g sq svd project projectBack entries).2 =
      some StepError.sparseGrad ∧
    (stepLoop g sq svd project projectBack entries).1[i]? = some e := by
  induction entries generalizing i with
  | nil => simp at he
  | cons a rest ih =>
    cases i with
    | zero =>
      have ha : a = e := Option.some_inj.mp (by simpa using he)
      subst ha
      simp only [stepLoop, hg, paramStep_sparse g sq svd project projectBack
        a.rank a.ratioVal a.p gr a.st hs]
      simp
    | succ j =>
      simp only [List.getElem?_cons_succ] at he
      have ihj := ih j he
      simp only [stepLoop]
      cases hga : a.grad with
      | none =>
        simp only [hga]
        simpa using ihj
      | some gra =>
        cases hps : paramStep g sq svd project projectBack a.rank a.ratioVal a.p gra a.st with
        | error err =>
          cases err
          simp only [hga, hps]
          simpa using he
        | ok out =>
          obtain ⟨p1, st1, rk1, ra1⟩ := out
          simp only [hga, hps]
          simpa using ihj

/-! Claim C2. -/

/-- Claim C2: the rank table is initialized to 2 for every
projection-eligible parameter, and a step never decreases any rank-table
entry: whenever slot i holds `e` before a step and `e'` after it, the
rank of `e'` is at least the rank of `e`. -/
theorem rank_table_init_and_monotone :
    (∀ (params : List Mat) (x : ℕ), x ∈ init_param_ranks params → x = 2) ∧
    (∀ (g : GroupCfg) (sq : ℚ → ℚ) (svd : Mat → List ℚ)
      (project : ℕ → ℕ → Mat → Mat) (projectBack : ℕ → Mat → Mat)
      (entries : List PEntry) (i : ℕ) (e e' : PEntry),
      entries[i]? = some e →
      (stepLoop g sq svd project projectBack entries).1[i]? = some e' →
      e.rank ≤ e'.rank) := by
  constructor
  · intro params x hx
    simp only [init_param_ranks, List.mem_map] at hx
    obtain ⟨-, -, hx2⟩ := hx
    exact hx2.symm
  · intro g sq svd project projectBack entries
    induction entries with
    | nil => intro i e e' he _; simp at he
    | cons a rest ih =>
      intro i e e' he hr
      cases i with
      | zero =>
        have ha : a = e := Option.some_inj.mp (by simpa using he)
        subst ha
        simp only [stepLoop] at hr
        cases hga : a.grad with
        | none =>
          simp only [hga] at hr
          simp at hr
          rw [← hr]
        | some gra =>
          cases hps : paramStep g sq svd project projectBack a.rank a.ratioVal a.p gra a.st with
          | error err =>
            simp only [hga, hps] at hr
            simp at hr
            rw [← hr]
          | ok out =>
            obtain ⟨p1, st1, rk1, ra1⟩ := out
            simp only [hga, hps] at hr
            simp at hr
            have hle := paramStep_rank_ge g sq svd project projectBack a.rank
              a.ratioVal a.p gra a.st p1 st1 rk1 ra1 hps
            rw [← hr]
            exact hle
      | succ j =>
        simp only [List.getElem?_cons_succ] at he
        simp only [stepLoop] at hr
        cases hga : a.grad with
        | none =>
          simp only [hga, List.getElem?_cons_succ] at hr
          exact ih j e e' he hr
        | some gra =>
          cases hps : paramStep g sq svd project projectBack a.rank a.ratioVal a.p gra a.st with
          | error err =>
            simp only [hga, hps, List.getElem?_cons_succ] at hr
            rw [he] at hr
            rw [Option.some_inj.mp hr]
          | ok out =>
            obtain ⟨p1, st1, rk1, ra1⟩ := out
            simp only [hga, hps, List.getElem?_cons_succ] at hr
            exact ih j e e' he hr

/-! Claim C8. -/

/-- Claim C8 (counterexample to the claim as stated): a rank-estimation
request on a degenerate gradient — here one with zero rows, whose sliced
spectrum is empty — is not rejected: no shape check exists, every
explained ratio of the empty spectrum is NaN, and the estimate returns
normally with the requested rank unchanged and a NaN ratio. -/
theorem degenerate_grad_no_rejection :
    estimateRank (fun _ => []) 2 ([] : Mat) = (2, EV.nan) := by decide

/-- Claim C8 (amended): the code performs no gradient-shape validation:
whenever the singular-value spectrum of the sliced gradient is empty (as
for a zero-row or zero-column gradient), rank estimation completes
normally, returning the requested rank unchanged with a NaN ratio. -/
theorem degenerate_grad_estimate_silent (svd : Mat → List ℚ) (rank0 : ℕ)
    (gmat : Mat) (h : svd (gmat.take (rank0 + rank_buffer)) = []) :
    estimateRank svd rank0 gmat = (rank0, EV.nan) := by
  have h1 : ratioBelow rank0 ([] : List ℚ) = false :=
    ratioBelow_of_le (by simp)
  have h2 : growRank rank0 ([] : List ℚ) = rank0 := by
    unfold growRank growRankF
    rw [h1]
    rfl
  simp only [estimateRank]
  rw [h, h2]
  rfl

theorem degenerate_grad_estimate_silent_witness :
    estimateRank (fun _ => []) 3 [[]] = (3, EV.nan) :=
  degenerate_grad_estimate_silent (fun _ => []) 3 [[]] rfl

/-! Witnesses for the claim theorems that carry hypotheses. -/

theorem moment_buffers_cover_rank_witness :
    2 ≤ minAxis (reconcileMoments [[1, 2], [3, 4]] 2 ([[5], [6]], [[7], [8]])).1 :=
  (moment_buffers_cover_rank [[1, 2], [3, 4]] 2 [[5], [6]] [[7], [8]]
    (fun a b => a + b) [[1]] [[1]]
    (by decide) (by decide) (by decide) (by decide)).2.1.2.2.1

theorem growth_pads_with_zeros_witness :
    entry (reconcileMoments [[1, 2], [3, 4]] 2 ([[5], [6]], [[7], [8]])).1 0 0 =
      some 5 ∧ (0 : ℚ) = 0 :=
  ⟨(growth_pads_with_zeros [[1, 2], [3, 4]] 2 [[5], [6]] [[7], [8]]
      (by decide) (by decide) (by decide) (by decide)).1 0 0 5 (by decide),
    (growth_pads_with_zeros [[1, 2], [3, 4]] 2 [[5], [6]] [[7], [8]]
      (by decide) (by decide) (by decide) (by decide)).2.2.1 0 1 0
      (by decide) (by decide)⟩

theorem reconcile_idempotent_witness :
    reconcileMoments [[1]] 1 (reconcileMoments [[1]] 1 ([[2]], [[3]])) =
      reconcileMoments [[1]] 1 ([[2]], [[3]]) :=
  reconcile_idempotent [[1]] 1 [[2]] [[3]] (by decide)

theorem validateHyper_ok_iff_witness :
    validateHyper 1 0 0 0 0 = Except.ok () :=
  (validateHyper_ok_iff 1 0 0 0 0).mpr
    ⟨by norm_num, ⟨by norm_num, by norm_num⟩, ⟨by norm_num, by norm_num⟩,
      by norm_num⟩

theorem step_size_formula_witness :
    stepSizeCalc ⟨2, 0, 0, 0, 0, false, false⟩ id 7 = 2 ∧
      stepSizeCalc ⟨2, 0, 0, 0, 0, true, false⟩ id 1 = 2 * id (1 - 0) / (1 - 0) :=
  ⟨(step_size_formula ⟨2, 0, 0, 0, 0, false, false⟩ id 7).1 rfl,
    (step_size_formula ⟨2, 0, 0, 0, 0, true, false⟩ id 1).2.2 rfl⟩

theorem none_grad_skips_param_witness :
    (stepLoop ⟨1, 0, 0, 0, 0, false, true⟩ id (fun _ => []) (fun _ _ m => m)
        (fun _ m => m)
        [⟨[[5]], none, ⟨none, none, none⟩, 2, EV.val 0⟩]).1[0]? =
      some ⟨[[5]], none, ⟨none, none, none⟩, 2, EV.val 0⟩ :=
  none_grad_skips_param ⟨1, 0, 0, 0, 0, false, true⟩ id (fun _ => [])
    (fun _ _ m => m) (fun _ m => m)
    [⟨[[5]], none, ⟨none, none, none⟩, 2, EV.val 0⟩] 0
    ⟨[[5]], none, ⟨none, none, none⟩, 2, EV.val 0⟩ (by decide) (by decide)

theorem sparse_grad_raises_and_preserves_witness :
    (stepLoop ⟨1, 0, 0, 0, 0, false, true⟩ id (fun _ => []) (fun _ _ m => m)
        (fun _ m => m)
        [⟨[[5]], some ⟨true, [[1]]⟩, ⟨none, none, none⟩, 2, EV.val 0⟩]).2 =
      some StepError.sparseGrad ∧
    (stepLoop ⟨1, 0, 0, 0, 0, false, true⟩ id (fun _ => []) (fun _ _ m => m)
        (fun _ m => m)
        [⟨[[5]], some ⟨true, [[1]]⟩, ⟨none, none, none⟩, 2, EV.val 0⟩]).1[0]? =
      some ⟨[[5]], some ⟨true, [[1]]⟩, ⟨none, none, none⟩, 2, EV.val 0⟩ :=
  sparse_grad_raises_and_preserves ⟨1, 0, 0, 0, 0, false, true⟩ id (fun _ => [])
    (fun _ _ m => m) (fun _ m => m)
    [⟨[[5]], some ⟨true, [[1]]⟩, ⟨none, none, none⟩, 2, EV.val 0⟩] 0
    ⟨[[5]], some ⟨true, [[1]]⟩, ⟨none, none, none⟩, 2, EV.val 0⟩
    ⟨true, [[1]]⟩ (by decide) (by decide) (by decide)

theorem rank_table_init_and_monotone_witness :
    (2 : ℕ) = 2 ∧
      (⟨[], some ⟨false, []⟩, ⟨none, none, none⟩, 2, EV.val 0⟩ : PEntry).rank ≤
        (⟨[], some ⟨false, []⟩, ⟨some 1, some ([], []), some 2⟩, 2,
          EV.nan⟩ : PEntry).rank :=
  ⟨rank_table_init_and_monotone.1 [([] : Mat)] 2 (by decide),
    rank_table_init_and_monotone.2 ⟨1, 0, 0, 0, 0, false, true⟩ id (fun _ => [])
      (fun _ _ m => m) (fun _ m => m)
      [⟨[], some ⟨false, []⟩, ⟨none, none, none⟩, 2, EV.val 0⟩] 0
      ⟨[], some ⟨false, []⟩, ⟨none, none, none⟩, 2, EV.val 0⟩
      ⟨[], some ⟨false, []⟩, ⟨some 1, some ([], []), some 2⟩, 2, EV.nan⟩
      (by decide) (by decide)⟩

end GaLoreInRank
